import Mathlib

/- Verification development for the upsETF repository.

   Part A embeds the TypeScript code as it is written:
   `IntersectionService.calculateIntersections` from
   `src/intersections/intersections.service.ts` (explicit state passing for
   the service's `map` field), and the request construction of
   `AlphavantageService.getEtfHoldings` from
   `src/alphavantage/alphavantage.service.ts`.

   Part B embeds the Weighted Exclusive-Intersection Allocator defined by the
   design document.  The repository's own `calculateIntersections` does not
   compute any subset-to-weight allocation (it only appends holdings to
   entries of a map that is initialized empty and never extended), so the
   allocator is modelled from the specification text, as its doc comments
   record. -/

/-- Holding record of the Alphavantage ETF payload, from
    `alphavantage.service.ts`, interface `AlphavantageEtfPayload`:
    `{symbol: string, description: string, weight: string}` (the provider
    delivers the weight as a string; the service never parses it). -/
structure PayloadHolding where
  symbol : String
  description : String
  weight : String
deriving DecidableEq

/-- Interface `AlphavantageEtfPayload` of `alphavantage.service.ts` (note the
    source's field spelling `net_expense_ration`). -/
structure AlphavantageEtfPayload where
  net_assets : String
  net_expense_ration : String
  portfolio_turnover : String
  dividend_yield : String
  inception_date : String
  leveraged : String
  sectors : List String
  holdings : List PayloadHolding
deriving DecidableEq

/-- Interface `EtfPayload` of `alphavantage.service.ts`. -/
structure EtfPayload where
  ticker : String
  last_fetched : String
  data : AlphavantageEtfPayload
deriving DecidableEq

/-- Interface `Intersection` of `intersections.service.ts`.  The source
    annotates `etfs` with its local `Holding[]` type, but the only values the
    service ever pushes into `etfs` are the payload holdings `h` taken from
    `e.data.holdings`, so at runtime the array holds payload holding records;
    the embedding uses that runtime type. -/
structure Intersection where
  symbol : String
  etfs : List PayloadHolding
deriving DecidableEq

namespace IntersectionService

/-- One iteration of the inner loop of `calculateIntersections`:
    `let i = this.map.find(entry => entry.symbol === symbol); if (i) { i.etfs.push(h) }`.
    The first entry of the map whose symbol equals `h.symbol` gets `h`
    appended to its `etfs`; if no entry matches, the map is unchanged. -/
def pushHolding (m : List Intersection) (h : PayloadHolding) : List Intersection :=
  match m with
  | [] => []
  | i :: rest =>
    if i.symbol = h.symbol then { i with etfs := i.etfs ++ [h] } :: rest
    else i :: pushHolding rest h

/-- Method `calculateIntersections(etfs: EtfPayload[])` of
    `IntersectionService`, with the service's `map` field passed explicitly:
    the two nested `for` loops run `pushHolding` over every holding of every
    payload, mutating the map in place; the method returns `this.map`, i.e.
    the updated map. -/
def calculateIntersections (m : List Intersection) (etfs : List EtfPayload) : List Intersection :=
  etfs.foldl (fun acc e => e.data.holdings.foldl pushHolding acc) m

/-- Initial value of the service's `map` field: `map: Intersection[] = []`. -/
def initialMap : List Intersection := []

end IntersectionService

/-- ECMAScript whitespace test used by `String.prototype.trim`: tab, line
    feed, vertical tab, form feed, carriage return, space, no-break space,
    line separator, paragraph separator and the byte order mark. -/
def isJsWhitespace (c : Char) : Bool :=
  c.toNat = 9 || c.toNat = 10 || c.toNat = 11 || c.toNat = 12 || c.toNat = 13 ||
  c.toNat = 32 || c.toNat = 160 || c.toNat = 0x2028 || c.toNat = 0x2029 || c.toNat = 0xFEFF

/-- Simple case mapping of `String.prototype.toUpperCase` on the ASCII range:
    a lowercase letter `a`..`z` is shifted to `A`..`Z`, every other character
    is unchanged (ticker strings are ASCII). -/
def jsCharToUpper (c : Char) : Char :=
  if 97 ≤ c.toNat ∧ c.toNat ≤ 122 then Char.ofNat (c.toNat - 32) else c

/-- Behaviour of `String.prototype.trim` on the character list: drop
    whitespace from the front, then from the back. -/
def trimCharList (l : List Char) : List Char :=
  ((l.dropWhile isJsWhitespace).reverse.dropWhile isJsWhitespace).reverse

/-- Model of `ticker.trim()`. -/
def jsTrim (s : String) : String := String.mk (trimCharList s.data)

/-- Model of `s.toUpperCase()` (ASCII simple case mapping). -/
def jsToUpperCase (s : String) : String := String.mk (s.data.map jsCharToUpper)

/-- Request URL constructed by `getEtfHoldings` in
    `alphavantage.service.ts`: `const symbol = ticker.trim().toUpperCase();`
    followed by `this.http.get(`/etf/<symbol>`)` with `etfUrl = '/etf'`. -/
def getEtfHoldingsUrl (ticker : String) : String :=
  "/etf/" ++ jsToUpperCase (jsTrim ticker)

/-- Modelled from the spec: the design document's `Holding` value, a
    (symbol, weight) pair with the weight a real fraction of the fund's net
    assets; the repository contains no implementation of the allocator's
    data model, so it is taken from the specification's section 3. -/
structure SpecHolding where
  symbol : String
  weight : ℚ
deriving DecidableEq

/-- Modelled from the spec: the design document's `Fund`, an identifier
    together with its holdings. -/
structure Fund where
  id : String
  holdings : List SpecHolding
deriving DecidableEq

/-- Symbols held by a fund, in holding order. -/
def Fund.symbols (F : Fund) : List String := F.holdings.map SpecHolding.symbol

/-- Weight of `sym` inside a holdings list: the weight of the first holding
    with that symbol, `0` if the list does not contain it. -/
def wIn (hl : List SpecHolding) (sym : String) : ℚ :=
  match hl.find? (fun h => h.symbol == sym) with
  | some h => h.weight
  | none => 0

/-- Weight of `sym` inside fund `F`. -/
def weightIn (F : Fund) (sym : String) : ℚ := wIn F.holdings sym

/-- Sum of a fund's holding weights. -/
def fundTotal (F : Fund) : ℚ := (F.holdings.map SpecHolding.weight).sum

/-- Modelled from the spec: the `RemainingWeight` ledger for one symbol,
    one entry per fund identifier, initialized to the fund's holding weight
    for that symbol (specification section 3, `RemainingWeight`). -/
def initRem (funds : List Fund) (sym : String) : List (String × ℚ) :=
  funds.map fun F => (F.id, weightIn F sym)

/-- Modelled from the spec: the ledger operation `get(symbol, fund)` — the
    current remaining weight of the (first) entry with the given fund
    identifier, `0.0` if the ledger has no such entry; it never fails
    (specification section 4.1). -/
def remGet (rem : List (String × ℚ)) (fid : String) : ℚ :=
  match rem.find? (fun p => p.1 == fid) with
  | some p => p.2
  | none => 0

/-- Modelled from the spec: the ledger operation `claim(symbol, funds,
    amount)` — subtract `amount` from each member fund's remaining weight
    (specification section 4.1). -/
def remClaim (rem : List (String × ℚ)) (S : List String) (amt : ℚ) : List (String × ℚ) :=
  rem.map fun p => if p.1 ∈ S then (p.1, p.2 - amt) else p

/-- Strict lexicographic comparison of character lists by code point. -/
def charListLt : List Char → List Char → Bool
  | _, [] => false
  | [], _ :: _ => true
  | a :: as, b :: bs =>
    if a < b then true
    else if b < a then false
    else charListLt as bs

/-- Strict lexicographic comparison of strings. -/
def strLt (s t : String) : Bool := charListLt s.data t.data

/-- Reflexive lexicographic order on strings, used to sort fund
    identifiers ascending. -/
def strLE (s t : String) : Prop := (s == t || strLt s t) = true

instance : DecidableRel strLE := fun s t =>
  inferInstanceAs (Decidable ((s == t || strLt s t) = true))

/-- Strict lexicographic comparison of identifier sequences. -/
def idSeqLt : List String → List String → Bool
  | _, [] => false
  | [], _ :: _ => true
  | a :: as, b :: bs => if a = b then idSeqLt as bs else strLt a b

/-- Modelled from the spec: the subset processing priority as a boolean
    comparison — larger subsets first, and inside one cardinality class
    ascending lexicographic order of the sorted identifier sequences
    (specification section 4.2, steps 2 and 3). -/
def subsetLEb (S T : List String) : Bool :=
  if S.length = T.length then S == T || idSeqLt S T
  else decide (T.length < S.length)

/-- Subset priority as a relation, for sorting. -/
def subsetLE (S T : List String) : Prop := subsetLEb S T = true

instance : DecidableRel subsetLE := fun S T =>
  inferInstanceAs (Decidable (subsetLEb S T = true))

/-- Strict subset priority: `S` is processed strictly before `T`. -/
def subsetBefore (S T : List String) : Prop :=
  T.length < S.length ∨ (S.length = T.length ∧ idSeqLt S T = true)

/-- Fund identifiers of the fund set, sorted ascending. -/
def allocIds (funds : List Fund) : List String :=
  List.insertionSort strLE (funds.map Fund.id)

/-- Modelled from the spec: the enumeration of all non-empty subsets of the
    fund identifiers in processing order — decreasing cardinality, ties by
    ascending lexicographic order of the sorted identifier sequence
    (specification section 4.2, steps 1 to 3; the repository has no subset
    enumeration). -/
def allocSubsets (funds : List Fund) : List (List String) :=
  List.insertionSort subsetLE ((allocIds funds).sublists.filter (fun S => !S.isEmpty))

/-- Bottleneck remaining weight of a subset: the minimum of the members'
    remaining weights (specification section 4.2, step 4). -/
def minRemWt (rem : List (String × ℚ)) : List String → ℚ
  | [] => 0
  | f :: fs => fs.foldl (fun m g => min m (remGet rem g)) (remGet rem f)

/-- Modelled from the spec: one symbol's claiming pass over the subset list
    (specification section 4.2, steps 4 and 5): each subset claims the
    bottleneck minimum of its members' remaining weights when that minimum
    is positive, the ledger subtracts the claim from every member, and the
    recorded claims are returned together with the final ledger. -/
def claimAmts (rem : List (String × ℚ)) :
    List (List String) → List (List String × ℚ) × List (String × ℚ)
  | [] => ([], rem)
  | S :: rest =>
    let amt := minRemWt rem S
    if 0 < amt then
      let out := claimAmts (remClaim rem S amt) rest
      ((S, amt) :: out.1, out.2)
    else
      let out := claimAmts rem rest
      ((S, 0) :: out.1, out.2)

/-- Symbols appearing in at least one fund of the fund set, deduplicated. -/
def symbolUniverse (funds : List Fund) : List String :=
  ((funds.map Fund.symbols).foldr (· ++ ·) []).dedup

/-- Claims recorded for one symbol, over the subsets in processing order. -/
def tableFor (funds : List Fund) (sym : String) : List (List String × ℚ) :=
  (claimAmts (initRem funds sym) (allocSubsets funds)).1

/-- Total amount recorded for subset `S` in a claim table. -/
def lookupAmt (pairs : List (List String × ℚ)) (S : List String) : ℚ :=
  ((pairs.filter (fun p => p.1 == S)).map Prod.snd).sum

/-- Modelled from the spec: `IntersectionResult[S]`, the weight exclusively
    claimed by subset `S`, accumulated additively across the symbols of the
    fund set (specification section 4.2, step 6). -/
def intersectionResult (funds : List Fund) (S : List String) : ℚ :=
  ((symbolUniverse funds).map fun sym => lookupAmt (tableFor funds sym) S).sum

/-- The allocator's result table: every subset in processing order paired
    with its exclusively claimed weight. -/
def intersectionTable (funds : List Fund) : List (List String × ℚ) :=
  (allocSubsets funds).map fun S => (S, intersectionResult funds S)

/-- Modelled from the spec: the `InvalidInput` guard — at least 2 funds, no
    negative weight, no duplicate symbol within one fund's holdings
    (specification sections 4.2 and 7). -/
def validInput (funds : List Fund) : Bool :=
  decide (2 ≤ funds.length) &&
  funds.all (fun F => F.holdings.all fun h => decide (0 ≤ h.weight)) &&
  funds.all (fun F => decide F.symbols.Nodup)

/-- Modelled from the spec: the Weighted Exclusive-Intersection Allocator,
    a pure function from the fund set to its intersection result, failing
    with `InvalidInput` (here `none`, with no partial result) exactly when
    the guard rejects the input.  The repository's `calculateIntersections`
    computes no allocation, so the whole allocator is taken from the
    specification, sections 4.2 and 7. -/
def specCalculateIntersections (funds : List Fund) : Option (List (List String × ℚ)) :=
  if validInput funds then some (intersectionTable funds) else none

/-- Worked three-fund scenario, fund 1: META at weight 0.07. -/
def exFund1 : Fund := ⟨"F1", [⟨"META", 7/100⟩]⟩

/-- Worked three-fund scenario, fund 2: META at weight 0.14. -/
def exFund2 : Fund := ⟨"F2", [⟨"META", 14/100⟩]⟩

/-- Worked three-fund scenario, fund 3: META at weight 0.20. -/
def exFund3 : Fund := ⟨"F3", [⟨"META", 20/100⟩]⟩

/-- The worked three-fund scenario of the specification. -/
def exFunds : List Fund := [exFund1, exFund2, exFund3]

/-- Disjoint-funds scenario, fund A: NVDA at 0.2 and AAPL at 0.1. -/
def djFundA : Fund := ⟨"A", [⟨"NVDA", 2/10⟩, ⟨"AAPL", 1/10⟩]⟩

/-- Disjoint-funds scenario, fund B: MSFT at 0.3. -/
def djFundB : Fund := ⟨"B", [⟨"MSFT", 3/10⟩]⟩

/-- The disjoint-funds scenario of the specification. -/
def djFunds : List Fund := [djFundA, djFundB]

/-- Five funds with no holdings, exercising the full 31-subset bound. -/
def fiveFunds : List Fund := [⟨"A", []⟩, ⟨"B", []⟩, ⟨"C", []⟩, ⟨"D", []⟩, ⟨"E", []⟩]

/-- A service map state holding one entry for META, used to exhibit the
    state carried by `IntersectionService` between invocations. -/
def seededMap : List Intersection := [⟨"META", []⟩]

/-- A payload whose single holding is META, for the same exhibit. -/
def metaPayload : EtfPayload :=
  ⟨"SPY", "2024-01-01", ⟨"", "", "", "", "", "", [], [⟨"META", "Meta Platforms", "0.07"⟩]⟩⟩

/-- Sum of the amounts a claim table records for subsets containing the fund
    identifier `f`. -/
def sumFor (f : String) (pairs : List (List String × ℚ)) : ℚ :=
  ((pairs.filter fun p => f ∈ p.1).map Prod.snd).sum

namespace IntersectionService

lemma pushHolding_map_symbol (m : List Intersection) (h : PayloadHolding) :
    (pushHolding m h).map Intersection.symbol = m.map Intersection.symbol := by
  induction m with
  | nil => rfl
  | cons i rest ih =>
    by_cases hc : i.symbol = h.symbol
    · simp [pushHolding, hc]
    · simp [pushHolding, hc, ih]

lemma foldl_pushHolding_map_symbol (hs : List PayloadHolding) (m : List Intersection) :
    (hs.foldl pushHolding m).map Intersection.symbol = m.map Intersection.symbol := by
  induction hs generalizing m with
  | nil => rfl
  | cons h hs ih => simp [List.foldl_cons, ih, pushHolding_map_symbol]

lemma calculateIntersections_map_symbol (m : List Intersection) (etfs : List EtfPayload) :
    (calculateIntersections m etfs).map Intersection.symbol = m.map Intersection.symbol := by
  induction etfs generalizing m with
  | nil => rfl
  | cons e rest ih =>
    simp [calculateIntersections, List.foldl_cons] at ih ⊢
    rw [ih, foldl_pushHolding_map_symbol]

end IntersectionService

/-- C8: `calculateIntersections` never creates a map entry.  For every map
    state and every input payload list, the symbols of the service's map
    after the call are exactly the symbols before it (holdings are only
    appended to entries whose symbol already exists), and on the freshly
    constructed service, whose map is initialized empty, every call returns
    the empty list. -/
theorem calculateIntersections_no_new_entries :
    (∀ (m : List Intersection) (etfs : List EtfPayload),
      (IntersectionService.calculateIntersections m etfs).map Intersection.symbol =
        m.map Intersection.symbol) ∧
    (∀ etfs : List EtfPayload,
      IntersectionService.calculateIntersections IntersectionService.initialMap etfs = []) := by
  refine ⟨IntersectionService.calculateIntersections_map_symbol, fun etfs => ?_⟩
  have h := IntersectionService.calculateIntersections_map_symbol
    IntersectionService.initialMap etfs
  simpa [IntersectionService.initialMap, List.map_eq_nil_iff] using h

/-- C3, counterexample: `calculateIntersections` does carry state between
    invocations — the service's `map` field.  From a map state holding an
    entry for META, calling the method twice with the same one-payload input
    returns different results: the first call appends the META holding once,
    the second call appends it again. -/
theorem calculateIntersections_stateful_counterexample :
    IntersectionService.calculateIntersections
        (IntersectionService.calculateIntersections seededMap [metaPayload]) [metaPayload] ≠
      IntersectionService.calculateIntersections seededMap [metaPayload] := by
  decide

/-- C3, amended: the service as constructed starts with the empty map, and
    from that state two invocations with identical input return identical
    (empty) results; statelessness in general fails, as the counterexample
    shows, because the map field persists across invocations. -/
theorem calculateIntersections_idempotent_from_fresh :
    ∀ etfs : List EtfPayload,
      IntersectionService.calculateIntersections
          (IntersectionService.calculateIntersections IntersectionService.initialMap etfs) etfs =
        IntersectionService.calculateIntersections IntersectionService.initialMap etfs := by
  intro etfs
  have h := IntersectionService.calculateIntersections_map_symbol
    IntersectionService.initialMap etfs
  have h2 : IntersectionService.calculateIntersections IntersectionService.initialMap etfs = [] := by
    simpa [IntersectionService.initialMap, List.map_eq_nil_iff] using h
  rw [h2]
  simpa [IntersectionService.initialMap] using h2

lemma toNat_charOfNat_of_lt {n : ℕ} (h : n < 55296) : (Char.ofNat n).toNat = n := by
  have hv : n.isValidChar := Or.inl h
  rw [Char.ofNat, dif_pos hv]
  rfl

lemma jsCharToUpper_not_lower {c : Char} (h : ¬(97 ≤ c.toNat ∧ c.toNat ≤ 122)) :
    jsCharToUpper c = c := by
  unfold jsCharToUpper
  rw [if_neg h]

lemma jsCharToUpper_lower {c : Char} (h : 97 ≤ c.toNat ∧ c.toNat ≤ 122) :
    (jsCharToUpper c).toNat = c.toNat - 32 := by
  unfold jsCharToUpper
  rw [if_pos h]
  exact toNat_charOfNat_of_lt (by omega)

lemma isJsWhitespace_jsCharToUpper (c : Char) :
    isJsWhitespace (jsCharToUpper c) = isJsWhitespace c := by
  by_cases hc : 97 ≤ c.toNat ∧ c.toNat ≤ 122
  · have h1 := jsCharToUpper_lower hc
    have hL : isJsWhitespace (jsCharToUpper c) = false := by
      simp only [isJsWhitespace, h1, Bool.or_eq_false_iff, decide_eq_false_iff_not]
      omega
    have hR : isJsWhitespace c = false := by
      simp only [isJsWhitespace, Bool.or_eq_false_iff, decide_eq_false_iff_not]
      omega
    rw [hL, hR]
  · rw [jsCharToUpper_not_lower hc]

lemma jsCharToUpper_idem (c : Char) :
    jsCharToUpper (jsCharToUpper c) = jsCharToUpper c := by
  by_cases hc : 97 ≤ c.toNat ∧ c.toNat ≤ 122
  · have h1 := jsCharToUpper_lower hc
    exact jsCharToUpper_not_lower (by rw [h1]; omega)
  · rw [jsCharToUpper_not_lower hc, jsCharToUpper_not_lower hc]

lemma dropWhile_head_false {p : Char → Bool} {l t : List Char} {a : Char}
    (h : List.dropWhile p l = a :: t) : p a = false := by
  induction l with
  | nil => simp at h
  | cons x xs ih =>
    rw [List.dropWhile_cons] at h
    by_cases hx : p x = true
    · exact ih (by rwa [if_pos hx] at h)
    · rw [if_neg hx] at h
      cases h
      simpa using hx

lemma dropWhile_idem (p : Char → Bool) (l : List Char) :
    List.dropWhile p (List.dropWhile p l) = List.dropWhile p l := by
  cases hdrop : List.dropWhile p l with
  | nil => rfl
  | cons a t => simp [List.dropWhile_cons, dropWhile_head_false hdrop]

lemma dropWhile_suffix_decomp (p : Char → Bool) (l : List Char) :
    ∃ t, t ++ List.dropWhile p l = l := by
  induction l with
  | nil => exact ⟨[], rfl⟩
  | cons a l ih =>
    by_cases ha : p a = true
    · obtain ⟨t, ht⟩ := ih
      exact ⟨a :: t, by simp [List.dropWhile_cons, ha, ht]⟩
    · exact ⟨[], by simp [List.dropWhile_cons, ha]⟩

lemma dropWhile_front_closed (p : Char → Bool) {l l' t : List Char}
    (h : l' ++ t = List.dropWhile p l) : List.dropWhile p l' = l' := by
  cases l' with
  | nil => rfl
  | cons a t' =>
    have hh : List.dropWhile p l = a :: (t' ++ t) := by rw [← h]; simp
    simp [List.dropWhile_cons, dropWhile_head_false hh]

lemma trimCharList_idem (l : List Char) : trimCharList (trimCharList l) = trimCharList l := by
  unfold trimCharList
  obtain ⟨t, ht⟩ := dropWhile_suffix_decomp isJsWhitespace (l.dropWhile isJsWhitespace).reverse
  have hpre : ((l.dropWhile isJsWhitespace).reverse.dropWhile isJsWhitespace).reverse ++
      t.reverse = l.dropWhile isJsWhitespace := by
    have := congrArg List.reverse ht
    simpa [List.reverse_append] using this
  rw [dropWhile_front_closed isJsWhitespace hpre, List.reverse_reverse, dropWhile_idem]

lemma trimCharList_map_up (l : List Char) :
    trimCharList (l.map jsCharToUpper) = (trimCharList l).map jsCharToUpper := by
  have hfun : (isJsWhitespace ∘ jsCharToUpper) = isJsWhitespace :=
    funext isJsWhitespace_jsCharToUpper
  unfold trimCharList
  rw [List.dropWhile_map, hfun, ← List.map_reverse, List.dropWhile_map, hfun, ← List.map_reverse]

lemma map_up_idem (l : List Char) :
    (l.map jsCharToUpper).map jsCharToUpper = l.map jsCharToUpper := by
  rw [List.map_map]
  exact List.map_congr_left fun a _ => jsCharToUpper_idem a

lemma normalizeTicker_idem (s : String) :
    jsToUpperCase (jsTrim (jsToUpperCase (jsTrim s))) = jsToUpperCase (jsTrim s) := by
  show String.mk ((trimCharList ((trimCharList s.data).map jsCharToUpper)).map jsCharToUpper) =
    String.mk ((trimCharList s.data).map jsCharToUpper)
  rw [trimCharList_map_up, map_up_idem, trimCharList_idem]

/-- C9: `getEtfHoldings` normalizes its ticker before building the request.
    Any two tickers equal after trimming and uppercasing produce the same
    request URL, and the URL built for `ticker.trim().toUpperCase()` is the
    URL built for `ticker` itself. -/
theorem getEtfHoldingsUrl_normalized :
    (∀ t₁ t₂ : String, jsToUpperCase (jsTrim t₁) = jsToUpperCase (jsTrim t₂) →
        getEtfHoldingsUrl t₁ = getEtfHoldingsUrl t₂) ∧
    (∀ t : String, getEtfHoldingsUrl (jsToUpperCase (jsTrim t)) = getEtfHoldingsUrl t) := by
  constructor
  · intro t₁ t₂ h
    unfold getEtfHoldingsUrl
    rw [h]
  · intro t
    unfold getEtfHoldingsUrl
    rw [normalizeTicker_idem]

/-- Witness for C9 at the tickers `" spy"` and `"SPY  "`. -/
theorem getEtfHoldingsUrl_normalized_witness :
    jsToUpperCase (jsTrim " spy") = jsToUpperCase (jsTrim "SPY  ") ∧
    getEtfHoldingsUrl " spy" = getEtfHoldingsUrl "SPY  " :=
  ⟨by decide, getEtfHoldingsUrl_normalized.1 " spy" "SPY  " (by decide)⟩

lemma remGet_cons (a : String) (q : ℚ) (rest : List (String × ℚ)) (f : String) :
    remGet ((a, q) :: rest) f = if a = f then q else remGet rest f := by
  by_cases h : a = f
  · simp [remGet, List.find?_cons, h]
  · simp [remGet, List.find?_cons, h]

lemma remGet_nonneg {rem : List (String × ℚ)} (h : ∀ p ∈ rem, 0 ≤ p.2) (f : String) :
    0 ≤ remGet rem f := by
  rcases hf : rem.find? (fun p => p.1 == f) with _ | p
  · simp [remGet, hf]
  · exact (by simp [remGet, hf] : remGet rem f = p.2) ▸ h p (List.mem_of_find?_eq_some hf)

lemma remGet_zero_of_not_key {rem : List (String × ℚ)} {f : String}
    (h : f ∉ rem.map Prod.fst) : remGet rem f = 0 := by
  induction rem with
  | nil => rfl
  | cons p rest ih =>
    obtain ⟨a, q⟩ := p
    simp only [List.map_cons, List.mem_cons] at h
    push_neg at h
    rw [remGet_cons, if_neg (fun he => h.1 he.symm), ih h.2]

lemma remGet_eq_of_mem {rem : List (String × ℚ)} (hkeys : (rem.map Prod.fst).Nodup)
    {p : String × ℚ} (hp : p ∈ rem) : remGet rem p.1 = p.2 := by
  induction rem with
  | nil => simp at hp
  | cons r rest ih =>
    obtain ⟨a, q⟩ := r
    simp only [List.map_cons, List.nodup_cons] at hkeys
    rcases List.mem_cons.mp hp with h | h
    · rw [← h, remGet_cons, if_pos rfl]
    · have hne : a ≠ p.1 := fun he => hkeys.1 (he ▸ List.mem_map_of_mem Prod.fst h)
      rw [remGet_cons, if_neg hne, ih hkeys.2 h]

lemma remClaim_cons (p : String × ℚ) (rest : List (String × ℚ)) (S : List String) (amt : ℚ) :
    remClaim (p :: rest) S amt =
      (if p.1 ∈ S then (p.1, p.2 - amt) else p) :: remClaim rest S amt := rfl

lemma remClaim_keys (rem : List (String × ℚ)) (S : List String) (amt : ℚ) :
    (remClaim rem S amt).map Prod.fst = rem.map Prod.fst := by
  unfold remClaim
  rw [List.map_map]
  refine List.map_congr_left fun p _ => ?_
  by_cases hp : p.1 ∈ S <;> simp [hp]

lemma remGet_remClaim_mem {rem : List (String × ℚ)} {f : String}
    (hf : f ∈ rem.map Prod.fst) (S : List String) (amt : ℚ) :
    remGet (remClaim rem S amt) f = if f ∈ S then remGet rem f - amt else remGet rem f := by
  induction rem with
  | nil => simp at hf
  | cons p rest ih =>
    obtain ⟨a, q⟩ := p
    rw [remClaim_cons]
    by_cases hpf : a = f
    · subst hpf
      by_cases hps : a ∈ S
      · simp [hps, remGet_cons]
      · simp [hps, remGet_cons]
    · have hf' : f ∈ rest.map Prod.fst := by
        rw [List.map_cons, List.mem_cons] at hf
        rcases hf with h | h
        · exact absurd h.symm hpf
        · exact h
      by_cases hps : a ∈ S
      · simp only [hps, if_pos, remGet_cons, if_neg hpf, ih hf']
      · simp only [hps, if_neg, not_false_iff, remGet_cons, if_neg hpf, ih hf']

lemma remGet_remClaim_not_mem {f : String} {S : List String} (hf : f ∉ S)
    (rem : List (String × ℚ)) (amt : ℚ) :
    remGet (remClaim rem S amt) f = remGet rem f := by
  induction rem with
  | nil => rfl
  | cons p rest ih =>
    obtain ⟨a, q⟩ := p
    rw [remClaim_cons]
    by_cases hps : a ∈ S
    · have hpf : a ≠ f := fun he => hf (he ▸ hps)
      simp only [hps, if_pos, remGet_cons, if_neg hpf, ih]
    · simp only [hps, if_neg, not_false_iff, remGet_cons, ih]

lemma remClaim_nonneg {rem : List (String × ℚ)} {S : List String} {amt : ℚ}
    (hnn : ∀ p ∈ rem, 0 ≤ p.2) (hkeys : (rem.map Prod.fst).Nodup)
    (hamt : ∀ g ∈ S, amt ≤ remGet rem g) :
    ∀ p ∈ remClaim rem S amt, 0 ≤ p.2 := by
  intro p' hp'
  unfold remClaim at hp'
  obtain ⟨p, hp, hpe⟩ := List.mem_map.mp hp'
  by_cases hps : p.1 ∈ S
  · rw [if_pos hps] at hpe
    have h1 : amt ≤ remGet rem p.1 := hamt p.1 hps
    rw [remGet_eq_of_mem hkeys hp] at h1
    rw [← hpe]
    simpa using h1
  · rw [if_neg hps] at hpe
    exact hpe ▸ hnn p hp

lemma foldl_min_le_init (rem : List (String × ℚ)) (fs : List String) (init : ℚ) :
    fs.foldl (fun m g => min m (remGet rem g)) init ≤ init := by
  induction fs generalizing init with
  | nil => exact le_refl init
  | cons x fs ih =>
    calc fs.foldl (fun m g => min m (remGet rem g)) (min init (remGet rem x)) ≤
          min init (remGet rem x) := ih _
      _ ≤ init := min_le_left _ _

lemma foldl_min_le_mem (rem : List (String × ℚ)) {fs : List String} {g : String}
    (hg : g ∈ fs) (init : ℚ) :
    fs.foldl (fun m g => min m (remGet rem g)) init ≤ remGet rem g := by
  induction fs generalizing init with
  | nil => simp at hg
  | cons x fs ih =>
    rcases List.mem_cons.mp hg with h | h
    · subst h
      calc fs.foldl (fun m g => min m (remGet rem g)) (min init (remGet rem g)) ≤
            min init (remGet rem g) := foldl_min_le_init rem fs _
        _ ≤ remGet rem g := min_le_right _ _
    · exact ih h _

lemma minRemWt_le {rem : List (String × ℚ)} {S : List String} {g : String} (hg : g ∈ S) :
    minRemWt rem S ≤ remGet rem g := by
  cases S with
  | nil => simp at hg
  | cons f fs =>
    rcases List.mem_cons.mp hg with h | h
    · subst h
      exact foldl_min_le_init rem fs _
    · exact foldl_min_le_mem rem h _

lemma minRemWt_singleton (rem : List (String × ℚ)) (f : String) :
    minRemWt rem [f] = remGet rem f := rfl

lemma claimAmts_nil (rem : List (String × ℚ)) : claimAmts rem [] = ([], rem) := rfl

lemma claimAmts_cons_pos {rem : List (String × ℚ)} {S : List String}
    (h : 0 < minRemWt rem S) (rest : List (List String)) :
    claimAmts rem (S :: rest) =
      ((S, minRemWt rem S) :: (claimAmts (remClaim rem S (minRemWt rem S)) rest).1,
       (claimAmts (remClaim rem S (minRemWt rem S)) rest).2) := by
  simp only [claimAmts]
  rw [if_pos h]

lemma claimAmts_cons_neg {rem : List (String × ℚ)} {S : List String}
    (h : ¬ 0 < minRemWt rem S) (rest : List (List String)) :
    claimAmts rem (S :: rest) = ((S, 0) :: (claimAmts rem rest).1, (claimAmts rem rest).2) := by
  simp only [claimAmts]
  rw [if_neg h]

lemma claimAmts_fst (L : List (List String)) :
    ∀ rem, ((claimAmts rem L).1).map Prod.fst = L := by
  induction L with
  | nil => intro rem; rfl
  | cons S rest ih =>
    intro rem
    by_cases h : 0 < minRemWt rem S
    · simp only [claimAmts_cons_pos h, List.map_cons, ih]
    · simp only [claimAmts_cons_neg h, List.map_cons, ih]

lemma claimAmts_keys (L : List (List String)) :
    ∀ rem, ((claimAmts rem L).2).map Prod.fst = rem.map Prod.fst := by
  induction L with
  | nil => intro rem; rfl
  | cons S rest ih =>
    intro rem
    by_cases h : 0 < minRemWt rem S
    · simp only [claimAmts_cons_pos h, ih, remClaim_keys]
    · simp only [claimAmts_cons_neg h, ih]

lemma claimAmts_nonneg (L : List (List String)) :
    ∀ rem, (rem.map Prod.fst).Nodup → (∀ p ∈ rem, 0 ≤ p.2) →
      ∀ p ∈ (claimAmts rem L).2, 0 ≤ p.2 := by
  induction L with
  | nil => intro rem _ hnn; exact hnn
  | cons S rest ih =>
    intro rem hkeys hnn
    by_cases h : 0 < minRemWt rem S
    · simp only [claimAmts_cons_pos h]
      refine ih _ ?_ (remClaim_nonneg hnn hkeys fun g hg => minRemWt_le hg)
      rw [remClaim_keys]
      exact hkeys
    · simp only [claimAmts_cons_neg h]
      exact ih rem hkeys hnn

lemma sumFor_cons (f : String) (S : List String) (w : ℚ) (tail : List (List String × ℚ)) :
    sumFor f ((S, w) :: tail) = (if f ∈ S then w else 0) + sumFor f tail := by
  by_cases h : f ∈ S <;> simp [sumFor, h]

lemma claimAmts_conserve (f : String) (L : List (List String)) :
    ∀ rem, f ∈ rem.map Prod.fst →
      sumFor f (claimAmts rem L).1 + remGet (claimAmts rem L).2 f = remGet rem f := by
  induction L with
  | nil => intro rem _; simp [claimAmts_nil, sumFor]
  | cons S rest ih =>
    intro rem hf
    by_cases h : 0 < minRemWt rem S
    · simp only [claimAmts_cons_pos h, sumFor_cons]
      have hkeys : f ∈ (remClaim rem S (minRemWt rem S)).map Prod.fst := by
        rw [remClaim_keys]; exact hf
      have hrec := ih (remClaim rem S (minRemWt rem S)) hkeys
      rw [add_assoc, hrec, remGet_remClaim_mem hf]
      by_cases hfS : f ∈ S
      · rw [if_pos hfS, if_pos hfS]; ring
      · rw [if_neg hfS, if_neg hfS]; ring
    · simp only [claimAmts_cons_neg h, sumFor_cons]
      rw [add_assoc, ih rem hf]
      by_cases hfS : f ∈ S
      · rw [if_pos hfS]; ring
      · rw [if_neg hfS]; ring

lemma claimAmts_zero_stays (f : String) (L : List (List String)) :
    ∀ rem, (rem.map Prod.fst).Nodup → (∀ p ∈ rem, 0 ≤ p.2) → remGet rem f = 0 →
      remGet (claimAmts rem L).2 f = 0 := by
  induction L with
  | nil => intro rem _ _ h0; exact h0
  | cons S rest ih =>
    intro rem hkeys hnn h0
    by_cases h : 0 < minRemWt rem S
    · simp only [claimAmts_cons_pos h]
      have hfS : f ∉ S := by
        intro hfs
        have hle := @minRemWt_le rem _ _ hfs
        rw [h0] at hle
        exact absurd (lt_of_lt_of_le h hle) (lt_irrefl 0)
      refine ih _ ?_ (remClaim_nonneg hnn hkeys fun g hg => minRemWt_le hg) ?_
      · rw [remClaim_keys]; exact hkeys
      · rw [remGet_remClaim_not_mem hfS, h0]
    · simp only [claimAmts_cons_neg h]
      exact ih rem hkeys hnn h0

lemma claimAmts_final_zero (f : String) (L1 L2 : List (List String)) :
    ∀ rem, (rem.map Prod.fst).Nodup → (∀ p ∈ rem, 0 ≤ p.2) → (∀ T ∈ L2, f ∉ T) →
      remGet (claimAmts rem (L1 ++ [f] :: L2)).2 f = 0 := by
  induction L1 with
  | nil =>
    intro rem hkeys hnn hL2
    rw [List.nil_append]
    by_cases h : 0 < minRemWt rem [f]
    · simp only [claimAmts_cons_pos h]
      refine claimAmts_zero_stays f L2 _ ?_
        (remClaim_nonneg hnn hkeys fun g hg => minRemWt_le hg) ?_
      · rw [remClaim_keys]; exact hkeys
      · by_cases hk : f ∈ rem.map Prod.fst
        · rw [remGet_remClaim_mem hk, if_pos (List.mem_singleton_self f), minRemWt_singleton]
          ring
        · rw [remGet_zero_of_not_key (by rwa [remClaim_keys])]
    · simp only [claimAmts_cons_neg h]
      have h0 : remGet rem f = 0 := by
        rw [minRemWt_singleton] at h
        exact le_antisymm (not_lt.mp h) (remGet_nonneg hnn f)
      exact claimAmts_zero_stays f L2 rem hkeys hnn h0
  | cons S rest ih =>
    intro rem hkeys hnn hL2
    rw [List.cons_append]
    by_cases h : 0 < minRemWt rem S
    · simp only [claimAmts_cons_pos h]
      refine ih _ ?_ (remClaim_nonneg hnn hkeys fun g hg => minRemWt_le hg) hL2
      rw [remClaim_keys]
      exact hkeys
    · simp only [claimAmts_cons_neg h]
      exact ih rem hkeys hnn hL2

lemma charListLt_cons (x y : Char) (xs ys : List Char) :
    charListLt (x :: xs) (y :: ys) =
      if x < y then true else if y < x then false else charListLt xs ys := rfl

lemma charListLt_irrefl : ∀ l : List Char, charListLt l l = false := by
  intro l
  induction l with
  | nil => rfl
  | cons x xs ih => simp [charListLt_cons, ih]

lemma charListLt_trans : ∀ a b c : List Char,
    charListLt a b = true → charListLt b c = true → charListLt a c = true := by
  intro a
  induction a with
  | nil =>
    intro b c hab hbc
    cases b with
    | nil => simp [charListLt] at hab
    | cons y ys =>
      cases c with
      | nil => simp [charListLt] at hbc
      | cons z zs => rfl
  | cons x xs ih =>
    intro b c hab hbc
    cases b with
    | nil => simp [charListLt] at hab
    | cons y ys =>
      cases c with
      | nil => simp [charListLt] at hbc
      | cons z zs =>
        rw [charListLt_cons] at hab hbc ⊢
        by_cases h1 : x < y
        · by_cases h2 : y < z
          · rw [if_pos (lt_trans h1 h2)]
          · rw [if_neg h2] at hbc
            by_cases h3 : z < y
            · rw [if_pos h3] at hbc
              exact absurd hbc (by simp)
            · have hyz : y = z := le_antisymm (not_lt.mp h3) (not_lt.mp h2)
              rw [if_pos (hyz ▸ h1)]
        · rw [if_neg h1] at hab
          by_cases h4 : y < x
          · rw [if_pos h4] at hab
            exact absurd hab (by simp)
          · have hxy : x = y := le_antisymm (not_lt.mp h4) (not_lt.mp h1)
            rw [if_neg h4] at hab
            by_cases h2 : y < z
            · rw [if_pos (hxy ▸ h2)]
            · rw [if_neg h2] at hbc
              by_cases h3 : z < y
              · rw [if_pos h3] at hbc
                exact absurd hbc (by simp)
              · have hyz : y = z := le_antisymm (not_lt.mp h3) (not_lt.mp h2)
                rw [if_neg h3] at hbc
                rw [if_neg (by rw [hxy, hyz]; exact lt_irrefl z),
                  if_neg (by rw [hxy, hyz]; exact lt_irrefl z)]
                exact ih ys zs hab hbc

lemma charListLt_eq_of_not_lt : ∀ a b : List Char,
    charListLt a b = false → charListLt b a = false → a = b := by
  intro a
  induction a with
  | nil =>
    intro b hab _
    cases b with
    | nil => rfl
    | cons y ys => simp [charListLt] at hab
  | cons x xs ih =>
    intro b hab hba
    cases b with
    | nil => simp [charListLt] at hba
    | cons y ys =>
      rw [charListLt_cons] at hab hba
      by_cases h1 : x < y
      · rw [if_pos h1] at hab
        exact absurd hab (by simp)
      · by_cases h2 : y < x
        · rw [if_pos h2] at hba
          exact absurd hba (by simp)
        · have hxy : x = y := le_antisymm (not_lt.mp h2) (not_lt.mp h1)
          rw [if_neg h1, if_neg h2] at hab
          rw [if_neg h2, if_neg h1] at hba
          rw [hxy, ih ys hab hba]

lemma strLt_trans {a b c : String} (hab : strLt a b = true) (hbc : strLt b c = true) :
    strLt a c = true :=
  charListLt_trans a.data b.data c.data hab hbc

lemma strLt_eq_of_not_lt {a b : String} (hab : strLt a b = false) (hba : strLt b a = false) :
    a = b :=
  congrArg String.mk (charListLt_eq_of_not_lt a.data b.data hab hba)

lemma strLt_irrefl (a : String) : strLt a a = false := charListLt_irrefl a.data

lemma strLt_asymm {a b : String} (hab : strLt a b = true) : strLt b a = false := by
  by_contra h
  have hba : strLt b a = true := by
    cases hc : strLt b a
    · exact absurd hc h
    · rfl
  have := strLt_trans hab hba
  rw [strLt_irrefl] at this
  exact absurd this (by simp)

lemma idSeqLt_cons (a b : String) (as bs : List String) :
    idSeqLt (a :: as) (b :: bs) = if a = b then idSeqLt as bs else strLt a b := rfl

lemma idSeqLt_irrefl : ∀ l : List String, idSeqLt l l = false := by
  intro l
  induction l with
  | nil => rfl
  | cons x xs ih => simp [idSeqLt_cons, ih]

lemma idSeqLt_trans : ∀ a b c : List String,
    idSeqLt a b = true → idSeqLt b c = true → idSeqLt a c = true := by
  intro a
  induction a with
  | nil =>
    intro b c hab hbc
    cases b with
    | nil => simp [idSeqLt] at hab
    | cons y ys =>
      cases c with
      | nil => simp [idSeqLt] at hbc
      | cons z zs => rfl
  | cons x xs ih =>
    intro b c hab hbc
    cases b with
    | nil => simp [idSeqLt] at hab
    | cons y ys =>
      cases c with
      | nil => simp [idSeqLt] at hbc
      | cons z zs =>
        rw [idSeqLt_cons] at hab hbc ⊢
        by_cases h1 : x = y
        · subst h1
          by_cases h2 : x = z
          · subst h2
            rw [if_pos rfl] at hab hbc ⊢
            exact ih ys zs hab hbc
          · rw [if_pos rfl] at hab
            rw [if_neg h2] at hbc ⊢
            exact hbc
        · rw [if_neg h1] at hab
          by_cases h2 : y = z
          · subst h2
            rw [if_neg h1]
            exact hab
          · rw [if_neg h2] at hbc
            by_cases h3 : x = z
            · subst h3
              have := strLt_trans hab hbc
              rw [strLt_irrefl] at this
              exact absurd this (by simp)
            · rw [if_neg h3]
              exact strLt_trans hab hbc

lemma idSeqLt_total_of_ne : ∀ a b : List String, a ≠ b →
    idSeqLt a b = true ∨ idSeqLt b a = true := by
  intro a
  induction a with
  | nil =>
    intro b hne
    cases b with
    | nil => exact absurd rfl hne
    | cons y ys => exact Or.inl rfl
  | cons x xs ih =>
    intro b hne
    cases b with
    | nil => exact Or.inr rfl
    | cons y ys =>
      rw [idSeqLt_cons, idSeqLt_cons]
      by_cases h1 : x = y
      · subst h1
        have hys : xs ≠ ys := fun he => hne (by rw [he])
        rw [if_pos rfl, if_pos rfl]
        exact ih ys hys
      · rw [if_neg h1, if_neg (fun he => h1 he.symm)]
        cases hlt : strLt x y
        · cases hlt' : strLt y x
          · exact absurd (strLt_eq_of_not_lt hlt hlt') h1
          · exact Or.inr rfl
        · exact Or.inl rfl

lemma subsetLE_iff (S T : List String) : subsetLE S T ↔
    (S.length = T.length ∧ (S = T ∨ idSeqLt S T = true)) ∨
    (S.length ≠ T.length ∧ T.length < S.length) := by
  unfold subsetLE subsetLEb
  by_cases h : S.length = T.length
  · simp [h]
  · simp [h]

instance : IsTrans (List String) subsetLE := ⟨by
  intro S T U hST hTU
  rw [subsetLE_iff] at hST hTU ⊢
  rcases hST with ⟨hlen1, hor1⟩ | ⟨hne1, hlt1⟩
  · rcases hTU with ⟨hlen2, hor2⟩ | ⟨hne2, hlt2⟩
    · left
      refine ⟨hlen1.trans hlen2, ?_⟩
      rcases hor1 with rfl | hlt1'
      · exact hor2
      · rcases hor2 with rfl | hlt2'
        · right; exact hlt1'
        · right; exact idSeqLt_trans _ _ _ hlt1' hlt2'
    · right; exact ⟨by omega, by omega⟩
  · rcases hTU with ⟨hlen2, hor2⟩ | ⟨hne2, hlt2⟩
    · right; exact ⟨by omega, by omega⟩
    · right; exact ⟨by omega, by omega⟩⟩

instance : IsTotal (List String) subsetLE := ⟨by
  intro S T
  rw [subsetLE_iff, subsetLE_iff]
  by_cases h : S.length = T.length
  · by_cases he : S = T
    · exact Or.inl (Or.inl ⟨h, Or.inl he⟩)
    · rcases idSeqLt_total_of_ne S T he with hlt | hlt
      · exact Or.inl (Or.inl ⟨h, Or.inr hlt⟩)
      · exact Or.inr (Or.inl ⟨h.symm, Or.inr hlt⟩)
  · rcases Nat.lt_or_ge S.length T.length with hl | hl
    · exact Or.inr (Or.inr ⟨fun he => h he.symm, hl⟩)
    · exact Or.inl (Or.inr ⟨h, lt_of_le_of_ne hl fun he => h he.symm⟩)⟩

lemma subsetLE_ne_before {S T : List String} (hle : subsetLE S T) (hne : S ≠ T) :
    subsetBefore S T := by
  rw [subsetLE_iff] at hle
  rcases hle with ⟨hlen, hor⟩ | ⟨hlen, hlt⟩
  · rcases hor with rfl | hlt
    · exact absurd rfl hne
    · exact Or.inr ⟨hlen, hlt⟩
  · exact Or.inl hlt

lemma allocIds_perm (funds : List Fund) : (allocIds funds).Perm (funds.map Fund.id) :=
  List.perm_insertionSort _ _

lemma allocIds_length (funds : List Fund) : (allocIds funds).length = funds.length := by
  unfold allocIds
  rw [List.length_insertionSort, List.length_map]

lemma allocIds_nodup {funds : List Fund} (h : (funds.map Fund.id).Nodup) :
    (allocIds funds).Nodup :=
  ((allocIds_perm funds).nodup_iff).mpr h

lemma mem_allocIds {funds : List Fund} {f : String} :
    f ∈ allocIds funds ↔ f ∈ funds.map Fund.id :=
  (allocIds_perm funds).mem_iff

lemma allocSubsets_perm (funds : List Fund) :
    (allocSubsets funds).Perm ((allocIds funds).sublists.filter fun S => !S.isEmpty) :=
  List.perm_insertionSort _ _

lemma mem_allocSubsets {funds : List Fund} {S : List String} :
    S ∈ allocSubsets funds ↔ S ≠ [] ∧ S.Sublist (allocIds funds) := by
  rw [(allocSubsets_perm funds).mem_iff, List.mem_filter, List.mem_sublists]
  constructor
  · rintro ⟨hsub, hne⟩
    refine ⟨?_, hsub⟩
    simpa using hne
  · rintro ⟨hne, hsub⟩
    refine ⟨hsub, ?_⟩
    simpa using hne

lemma allocSubsets_nodup {funds : List Fund} (h : (funds.map Fund.id).Nodup) :
    (allocSubsets funds).Nodup := by
  have h1 : (allocIds funds).sublists.Nodup := List.nodup_sublists.mpr (allocIds_nodup h)
  exact ((allocSubsets_perm funds).nodup_iff).mpr (h1.filter _)

lemma allocSubsets_sorted (funds : List Fund) : List.Sorted subsetLE (allocSubsets funds) :=
  List.sorted_insertionSort _ _

lemma allocSubsets_sorted_strict {funds : List Fund} (h : (funds.map Fund.id).Nodup) :
    List.Sorted subsetBefore (allocSubsets funds) := by
  have hs := allocSubsets_sorted funds
  have hn : (allocSubsets funds).Nodup := allocSubsets_nodup h
  exact (hs.and hn).imp fun hab => subsetLE_ne_before hab.1 hab.2

lemma singleton_mem_allocSubsets {funds : List Fund} {F : Fund} (hF : F ∈ funds) :
    [F.id] ∈ allocSubsets funds := by
  rw [mem_allocSubsets]
  exact ⟨by simp, List.singleton_sublist.mpr (mem_allocIds.mpr (List.mem_map_of_mem _ hF))⟩

lemma no_f_after_singleton {funds : List Fund} (h : (funds.map Fund.id).Nodup) {f : String}
    {L1 L2 : List (List String)} (hsplit : allocSubsets funds = L1 ++ [f] :: L2) :
    ∀ T ∈ L2, f ∉ T := by
  intro T hT hfT
  have hs := allocSubsets_sorted funds
  have hn := allocSubsets_nodup h
  rw [hsplit] at hs hn
  have hrel : subsetLE [f] T :=
    (List.pairwise_cons.mp (List.pairwise_append.mp hs).2.1).1 T hT
  have hne : [f] ≠ T := by
    have hsing : [f] ∉ L2 := (List.nodup_cons.mp (List.nodup_append.mp hn).2.1).1
    intro he
    exact hsing (he ▸ hT)
  rw [subsetLE_iff] at hrel
  rcases hrel with ⟨hlen, _⟩ | ⟨_, hlt⟩
  · cases T with
    | nil => simp at hfT
    | cons g ts =>
      cases ts with
      | nil =>
        have hfg : f = g := by simpa using hfT
        exact hne (by rw [hfg])
      | cons g2 ts2 => simp at hlen
  · cases T with
    | nil => simp at hfT
    | cons g ts => simp at hlt

lemma sum_map_add {β : Type} (M : List β) (f g : β → ℚ) :
    (M.map fun y => f y + g y).sum = (M.map f).sum + (M.map g).sum := by
  induction M with
  | nil => simp
  | cons y M ih =>
    simp only [List.map_cons, List.sum_cons, ih]
    ring

lemma list_sum_swap {α β : Type} (g : α → β → ℚ) (L : List α) (M : List β) :
    (L.map fun x => (M.map (g x)).sum).sum = (M.map fun y => (L.map fun x => g x y).sum).sum := by
  induction L with
  | nil => simp
  | cons x L ih =>
    simp only [List.map_cons, List.sum_cons, ih, ← sum_map_add]

lemma lookupAmt_nil (S : List String) : lookupAmt [] S = 0 := rfl

lemma lookupAmt_cons (T : List String) (w : ℚ) (tail : List (List String × ℚ)) (S : List String) :
    lookupAmt ((T, w) :: tail) S = (if T = S then w else 0) + lookupAmt tail S := by
  by_cases h : T = S <;> simp [lookupAmt, h]

lemma lookupAmt_zero_of_not_fst {pairs : List (List String × ℚ)} {S : List String}
    (h : S ∉ pairs.map Prod.fst) : lookupAmt pairs S = 0 := by
  induction pairs with
  | nil => rfl
  | cons p tail ih =>
    obtain ⟨T, w⟩ := p
    simp only [List.map_cons, List.mem_cons] at h
    push_neg at h
    rw [lookupAmt_cons, if_neg (fun he => h.1 he.symm), ih h.2, add_zero]

lemma sum_lookupAmt_filter (f : String) (pairs : List (List String × ℚ)) :
    ∀ L : List (List String), pairs.map Prod.fst = L → L.Nodup →
      ((L.filter fun S => f ∈ S).map (lookupAmt pairs)).sum = sumFor f pairs := by
  induction pairs with
  | nil =>
    intro L hfst hnd
    rw [← hfst]
    simp [sumFor]
  | cons p tail ih =>
    intro L hfst hnd
    obtain ⟨S₀, w₀⟩ := p
    subst hfst
    simp only [List.map_cons, List.nodup_cons] at hnd
    obtain ⟨hS₀, hnd'⟩ := hnd
    have hcongr : ∀ S ∈ (tail.map Prod.fst).filter fun S => f ∈ S,
        lookupAmt ((S₀, w₀) :: tail) S = lookupAmt tail S := by
      intro S hS
      have hmem := (List.mem_filter.mp hS).1
      have hne : S₀ ≠ S := fun he => hS₀ (he ▸ hmem)
      rw [lookupAmt_cons, if_neg hne, zero_add]
    rw [sumFor_cons]
    simp only [List.map_cons]
    by_cases hf0 : f ∈ S₀
    · rw [List.filter_cons_of_pos (by simpa using hf0), List.map_cons, List.sum_cons,
        lookupAmt_cons, if_pos rfl, lookupAmt_zero_of_not_fst hS₀, add_zero,
        List.map_congr_left hcongr, ih (tail.map Prod.fst) rfl hnd', if_pos hf0]
    · rw [List.filter_cons_of_neg (by simpa using hf0),
        List.map_congr_left hcongr, ih (tail.map Prod.fst) rfl hnd', if_neg hf0, zero_add]

lemma mem_symbolUniverse {funds : List Fund} {sym : String} :
    sym ∈ symbolUniverse funds ↔ ∃ F ∈ funds, sym ∈ F.symbols := by
  unfold symbolUniverse
  rw [List.mem_dedup]
  induction funds with
  | nil => simp
  | cons F funds ih =>
    simp only [List.map_cons, List.foldr_cons, List.mem_append, ih, List.mem_cons]
    constructor
    · rintro (h | ⟨G, hG, hs⟩)
      · exact ⟨F, Or.inl rfl, h⟩
      · exact ⟨G, Or.inr hG, hs⟩
    · rintro ⟨G, hG | hG, hs⟩
      · exact Or.inl (hG ▸ hs)
      · exact Or.inr ⟨G, hG, hs⟩

lemma symbolUniverse_nodup (funds : List Fund) : (symbolUniverse funds).Nodup :=
  List.nodup_dedup _

lemma wIn_cons (h : SpecHolding) (hs : List SpecHolding) (sym : String) :
    wIn (h :: hs) sym = if h.symbol = sym then h.weight else wIn hs sym := by
  by_cases hh : h.symbol = sym <;> simp [wIn, List.find?_cons, hh]

lemma wIn_nonneg {hl : List SpecHolding} (h : ∀ x ∈ hl, 0 ≤ x.weight) (sym : String) :
    0 ≤ wIn hl sym := by
  rcases hfind : hl.find? (fun x => x.symbol == sym) with _ | x
  · simp [wIn, hfind]
  · exact (by simp [wIn, hfind] : wIn hl sym = x.weight) ▸ h x (List.mem_of_find?_eq_some hfind)

lemma wIn_zero_of_not_mem {hl : List SpecHolding} {sym : String}
    (h : sym ∉ hl.map SpecHolding.symbol) : wIn hl sym = 0 := by
  induction hl with
  | nil => rfl
  | cons x hs ih =>
    simp only [List.map_cons, List.mem_cons] at h
    push_neg at h
    rw [wIn_cons, if_neg (fun he => h.1 he.symm), ih h.2]

lemma sum_wIn (hl : List SpecHolding) :
    ∀ l : List String, l.Nodup → (∀ s ∈ hl.map SpecHolding.symbol, s ∈ l) →
      (hl.map SpecHolding.symbol).Nodup →
      (l.map fun sym => wIn hl sym).sum = (hl.map SpecHolding.weight).sum := by
  induction hl with
  | nil =>
    intro l _ _ _
    simp only [List.map_nil, List.sum_nil]
    calc (l.map fun sym => wIn [] sym).sum = (l.map fun _ => (0 : ℚ)).sum := rfl
      _ = 0 := List.sum_map_zero
  | cons h hs ih =>
    intro l hnd hsub hsynd
    simp only [List.map_cons, List.nodup_cons] at hsynd
    obtain ⟨hnotin, hsynd'⟩ := hsynd
    have hs0 : h.symbol ∈ l := hsub h.symbol (by simp)
    have hperm := List.perm_cons_erase hs0
    have hnerase : h.symbol ∉ l.erase h.symbol := hnd.not_mem_erase
    calc (l.map fun sym => wIn (h :: hs) sym).sum
        = ((h.symbol :: l.erase h.symbol).map fun sym => wIn (h :: hs) sym).sum :=
          (hperm.map _).sum_eq
      _ = wIn (h :: hs) h.symbol + ((l.erase h.symbol).map fun sym => wIn (h :: hs) sym).sum := by
          rw [List.map_cons, List.sum_cons]
      _ = h.weight + ((l.erase h.symbol).map fun sym => wIn hs sym).sum := by
          rw [wIn_cons, if_pos rfl]
          congr 1
          refine congrArg List.sum (List.map_congr_left fun s hsmem => ?_)
          have hsne : h.symbol ≠ s := fun he => hnerase (he ▸ hsmem)
          rw [wIn_cons, if_neg hsne]
      _ = h.weight + (hs.map SpecHolding.weight).sum := by
          congr 1
          refine ih (l.erase h.symbol) (hnd.erase _) ?_ hsynd'
          intro s hsmem'
          have hsl : s ∈ l := hsub s (by simp [hsmem'])
          have hsne : s ≠ h.symbol := fun he => hnotin (he ▸ hsmem')
          exact (List.mem_erase_of_ne hsne).mpr hsl
      _ = ((h :: hs).map SpecHolding.weight).sum := by
          rw [List.map_cons, List.sum_cons]

lemma initRem_keys (funds : List Fund) (sym : String) :
    (initRem funds sym).map Prod.fst = funds.map Fund.id := by
  unfold initRem
  rw [List.map_map]
  rfl

lemma remGet_initRem {funds : List Fund} (hids : (funds.map Fund.id).Nodup) {F : Fund}
    (hF : F ∈ funds) (sym : String) :
    remGet (initRem funds sym) F.id = weightIn F sym := by
  have hp : (F.id, weightIn F sym) ∈ initRem funds sym := List.mem_map_of_mem _ hF
  have hkeys : ((initRem funds sym).map Prod.fst).Nodup := by
    rw [initRem_keys]
    exact hids
  exact remGet_eq_of_mem hkeys hp

lemma initRem_nonneg {funds : List Fund} {sym : String}
    (hw : ∀ F ∈ funds, ∀ h ∈ F.holdings, 0 ≤ h.weight) :
    ∀ p ∈ initRem funds sym, 0 ≤ p.2 := by
  intro p hp
  obtain ⟨F, hF, rfl⟩ := List.mem_map.mp hp
  exact wIn_nonneg (hw F hF) sym

lemma sumFor_tableFor {funds : List Fund} (hids : (funds.map Fund.id).Nodup)
    (hw : ∀ F ∈ funds, ∀ h ∈ F.holdings, 0 ≤ h.weight) {F : Fund} (hF : F ∈ funds)
    (sym : String) : sumFor F.id (tableFor funds sym) = weightIn F sym := by
  have hkey : F.id ∈ (initRem funds sym).map Prod.fst := by
    rw [initRem_keys]
    exact List.mem_map_of_mem _ hF
  have hcons := claimAmts_conserve F.id (allocSubsets funds) (initRem funds sym) hkey
  obtain ⟨L1, L2, hsplit⟩ := List.append_of_mem (singleton_mem_allocSubsets hF)
  have hzero : remGet (claimAmts (initRem funds sym) (allocSubsets funds)).2 F.id = 0 := by
    rw [hsplit]
    exact claimAmts_final_zero F.id L1 L2 _ (by rw [initRem_keys]; exact hids)
      (initRem_nonneg hw) (no_f_after_singleton hids hsplit)
  rw [hzero, add_zero, remGet_initRem hids hF] at hcons
  exact hcons

lemma conservation_sum {funds : List Fund} (hids : (funds.map Fund.id).Nodup)
    (hw : ∀ F ∈ funds, ∀ h ∈ F.holdings, 0 ≤ h.weight)
    (hsy : ∀ F ∈ funds, (F.holdings.map SpecHolding.symbol).Nodup)
    {F : Fund} (hF : F ∈ funds) :
    (((allocSubsets funds).filter fun S => F.id ∈ S).map (intersectionResult funds)).sum =
      fundTotal F := by
  have hswap : (((allocSubsets funds).filter fun S => F.id ∈ S).map
        (intersectionResult funds)).sum =
      ((symbolUniverse funds).map fun sym =>
        (((allocSubsets funds).filter fun S => F.id ∈ S).map fun S =>
          lookupAmt (tableFor funds sym) S).sum).sum := by
    unfold intersectionResult
    exact list_sum_swap (fun S sym => lookupAmt (tableFor funds sym) S) _ _
  rw [hswap]
  have hcongr : ∀ sym ∈ symbolUniverse funds,
      (((allocSubsets funds).filter fun S => F.id ∈ S).map fun S =>
        lookupAmt (tableFor funds sym) S).sum = weightIn F sym := by
    intro sym _
    rw [sum_lookupAmt_filter F.id (tableFor funds sym) (allocSubsets funds)
      (by unfold tableFor; exact claimAmts_fst _ _) (allocSubsets_nodup hids)]
    exact sumFor_tableFor hids hw hF sym
  rw [List.map_congr_left hcongr]
  exact sum_wIn F.holdings (symbolUniverse funds) (symbolUniverse_nodup _)
    (fun s hs => mem_symbolUniverse.mpr ⟨F, hF, hs⟩) (hsy F hF)

lemma validInput_iff (funds : List Fund) : validInput funds = true ↔
    2 ≤ funds.length ∧ (∀ F ∈ funds, ∀ h ∈ F.holdings, 0 ≤ h.weight) ∧
      ∀ F ∈ funds, (F.holdings.map SpecHolding.symbol).Nodup := by
  unfold validInput
  simp [List.all_eq_true, Fund.symbols, and_assoc]

lemma specCalc_eq_some {funds : List Fund} {table : List (List String × ℚ)}
    (h : specCalculateIntersections funds = some table) :
    validInput funds = true ∧ table = intersectionTable funds := by
  unfold specCalculateIntersections at h
  by_cases hv : validInput funds
  · rw [if_pos hv] at h
    exact ⟨hv, (Option.some_inj.mp h).symm⟩
  · rw [if_neg hv] at h
    exact absurd h (by simp)

/-- C1: conservation.  Whenever the allocator succeeds on a fund set (a
    deduplicated sequence of at most 5 funds), then for every fund `F` of the
    set, the sum of the result table's weights over all subsets containing
    `F`'s identifier equals the sum of `F`'s original holding weights for
    symbols present in at least one fund of the set (every symbol of `F` is
    present in `F` itself, so this is `F`'s total weight): no weight is
    created or destroyed. -/
theorem allocator_conservation (funds : List Fund) (table : List (List String × ℚ))
    (hsome : specCalculateIntersections funds = some table)
    (hids : (funds.map Fund.id).Nodup) (_hlen : funds.length ≤ 5) :
    ∀ F ∈ funds,
      ((table.filter fun p => F.id ∈ p.1).map Prod.snd).sum =
        ((F.holdings.filter fun h => h.symbol ∈ symbolUniverse funds).map
          SpecHolding.weight).sum := by
  intro F hF
  obtain ⟨hv, rfl⟩ := specCalc_eq_some hsome
  rw [validInput_iff] at hv
  obtain ⟨-, hw, hsy⟩ := hv
  have hfil : (F.holdings.filter fun h => h.symbol ∈ symbolUniverse funds) = F.holdings := by
    rw [List.filter_eq_self]
    intro h hh
    simp only [decide_eq_true_eq]
    exact mem_symbolUniverse.mpr ⟨F, hF, List.mem_map_of_mem _ hh⟩
  rw [hfil]
  have hplumb : ((intersectionTable funds).filter fun p => F.id ∈ p.1).map Prod.snd
      = ((allocSubsets funds).filter fun S => F.id ∈ S).map (intersectionResult funds) := by
    unfold intersectionTable
    rw [List.filter_map, List.map_map]
    rfl
  rw [hplumb, conservation_sum hids hw hsy hF]
  rfl

/-- C5: subset processing order.  For a fund set with distinct identifiers,
    the allocator's subset enumeration is strictly sorted by decreasing
    cardinality with ascending lexicographic order of the sorted
    identifier sequence inside one cardinality class; it contains exactly
    the non-empty subsets of the sorted identifier list (as sorted
    sequences); and every singleton subset comes after every subset of two
    or more funds. -/
theorem allocSubsets_processing_order (funds : List Fund)
    (hids : (funds.map Fund.id).Nodup) :
    List.Sorted subsetBefore (allocSubsets funds) ∧
    (∀ S : List String, S ∈ allocSubsets funds ↔ S ≠ [] ∧ S.Sublist (allocIds funds)) ∧
    ∀ i j : Fin (allocSubsets funds).length,
      2 ≤ ((allocSubsets funds).get i).length → ((allocSubsets funds).get j).length = 1 →
        i < j := by
  refine ⟨allocSubsets_sorted_strict hids, fun S => mem_allocSubsets, ?_⟩
  intro i j h2 h1
  by_contra hij
  rcases lt_or_eq_of_le (not_lt.mp hij) with hji | hji
  · have hrel := (allocSubsets_sorted_strict hids).rel_get_of_lt hji
    rcases hrel with hlt | ⟨heq, _⟩
    · omega
    · omega
  · rw [hji] at h1
    omega

/-- Witness for C5 at the worked three-fund scenario. -/
theorem allocSubsets_processing_order_witness :
    (exFunds.map Fund.id).Nodup ∧ List.Sorted subsetBefore (allocSubsets exFunds) :=
  ⟨by decide, (allocSubsets_processing_order exFunds (by decide)).1⟩

lemma flatMap_pair_filter_length (a : String) (L : List (List String)) :
    ((L.flatMap fun x => [x, a :: x]).filter fun S => !S.isEmpty).length =
      (L.filter fun S => !S.isEmpty).length + L.length := by
  induction L with
  | nil => rfl
  | cons x L ih =>
    rw [List.flatMap_cons, List.filter_append, List.length_append, ih]
    cases x with
    | nil => simp [List.filter_cons]; omega
    | cons b xs => simp [List.filter_cons]; omega

lemma length_filter_sublists (l : List String) :
    (l.sublists.filter fun S => !S.isEmpty).length = 2 ^ l.length - 1 := by
  induction l with
  | nil => rfl
  | cons a l ih =>
    have hcons : (a :: l).sublists = l.sublists.flatMap fun x => [x, a :: x] :=
      List.sublists_cons a l
    rw [hcons, flatMap_pair_filter_length, ih, List.length_sublists]
    have h2n : 1 ≤ 2 ^ l.length := Nat.one_le_two_pow
    have hpow : 2 ^ (l.length + 1) = 2 ^ l.length * 2 := pow_succ 2 l.length
    simp only [List.length_cons, hpow]
    omega

/-- C7: boundedness and termination.  The allocator enumerates exactly
    `2 ^ n - 1` subsets for `n` funds, at most 31 for at most 5 funds, and
    its total claiming work is that subset count once per distinct symbol;
    the embedded allocator is a total Lean function, so it terminates on
    every input. -/
theorem allocator_bounded (funds : List Fund) (hlen : funds.length ≤ 5) :
    (allocSubsets funds).length = 2 ^ funds.length - 1 ∧
    (allocSubsets funds).length ≤ 31 ∧
    (allocSubsets funds).length * (symbolUniverse funds).length ≤
      31 * (symbolUniverse funds).length := by
  have h1 : (allocSubsets funds).length = 2 ^ funds.length - 1 := by
    unfold allocSubsets
    rw [List.length_insertionSort, length_filter_sublists, allocIds_length]
  have h2 : (allocSubsets funds).length ≤ 31 := by
    rw [h1]
    have hp : 2 ^ funds.length ≤ 2 ^ 5 := Nat.pow_le_pow_right (by omega) hlen
    omega
  exact ⟨h1, h2, Nat.mul_le_mul_right _ h2⟩

/-- Witness for C7 at a five-fund set: exactly 31 subsets. -/
theorem allocator_bounded_witness :
    fiveFunds.length ≤ 5 ∧ (allocSubsets fiveFunds).length = 2 ^ fiveFunds.length - 1 ∧
      (allocSubsets fiveFunds).length ≤ 31 :=
  ⟨by decide, (allocator_bounded fiveFunds (by decide)).1,
    (allocator_bounded fiveFunds (by decide)).2.1⟩

/-- C4: InvalidInput failure semantics.  The allocator reports failure
    (returns no result at all, hence nothing partially computed) exactly
    when the input has fewer than 2 funds, or some negative weight, or a
    duplicate symbol within one fund's holdings; on every other input it
    succeeds. -/
theorem specCalculateIntersections_invalid_iff (funds : List Fund) :
    specCalculateIntersections funds = none ↔
      funds.length < 2 ∨ (∃ F ∈ funds, ∃ h ∈ F.holdings, h.weight < 0) ∨
        ∃ F ∈ funds, ¬ (F.holdings.map SpecHolding.symbol).Nodup := by
  unfold specCalculateIntersections
  by_cases hv : validInput funds
  · rw [if_pos hv]
    rw [validInput_iff] at hv
    obtain ⟨hl, hw, hsy⟩ := hv
    constructor
    · intro h
      exact absurd h (by simp)
    · rintro (h | ⟨F, hF, h, hh, hneg⟩ | ⟨F, hF, hnd⟩)
      · omega
      · exact absurd (hw F hF h hh) (not_le.mpr hneg)
      · exact absurd (hsy F hF) hnd
  · rw [if_neg hv]
    constructor
    · intro _
      by_cases hl : 2 ≤ funds.length
      · by_cases hwB : ∀ F ∈ funds, ∀ h ∈ F.holdings, 0 ≤ h.weight
        · have hC : ¬ ∀ F ∈ funds, (F.holdings.map SpecHolding.symbol).Nodup :=
            fun hsy => hv ((validInput_iff _).mpr ⟨hl, hwB, hsy⟩)
          push_neg at hC
          exact Or.inr (Or.inr hC)
        · push_neg at hwB
          obtain ⟨F, hF, h, hh, hneg⟩ := hwB
          exact Or.inr (Or.inl ⟨F, hF, h, hh, hneg⟩)
      · exact Or.inl (by omega)
    · intro _
      rfl

/-- Witness for C4: a single-fund input is rejected. -/
theorem specCalculateIntersections_invalid_iff_witness :
    specCalculateIntersections [exFund1] = none :=
  (specCalculateIntersections_invalid_iff [exFund1]).mpr (Or.inl (by norm_num))

lemma initRem_cons (F : Fund) (funds : List Fund) (sym : String) :
    initRem (F :: funds) sym = (F.id, weightIn F sym) :: initRem funds sym := rfl

lemma remGet_initRem_eq (funds : List Fund) (sym g : String) :
    remGet (initRem funds sym) g =
      match funds.find? (fun F => F.id == g) with
      | some F => weightIn F sym
      | none => 0 := by
  induction funds with
  | nil => rfl
  | cons F funds ih =>
    rw [initRem_cons, remGet_cons]
    by_cases hFg : F.id = g
    · rw [if_pos hFg, List.find?_cons_of_pos _ (by simpa using hFg)]
    · rw [if_neg hFg, ih, List.find?_cons_of_neg _ (by simpa using hFg)]

lemma initRem_support {funds : List Fund} {sym : String}
    (hdisj : ∀ F ∈ funds, ∀ G ∈ funds, F.id ≠ G.id → ∀ s ∈ F.symbols, s ∉ G.symbols) :
    ∃ f₀, ∀ g, g ≠ f₀ → remGet (initRem funds sym) g = 0 := by
  by_cases hex : ∃ F ∈ funds, sym ∈ F.symbols
  · obtain ⟨F₀, hF₀, hsym⟩ := hex
    refine ⟨F₀.id, fun g hne => ?_⟩
    rw [remGet_initRem_eq]
    rcases hfind : funds.find? (fun F => F.id == g) with _ | G
    · rw [hfind]
    · rw [hfind]
      have hGmem := List.mem_of_find?_eq_some hfind
      have hGid : G.id = g := by simpa using List.find?_some hfind
      have hneq : F₀.id ≠ G.id := fun he => hne (by rw [← hGid, ← he])
      have hnot := hdisj F₀ hF₀ G hGmem hneq sym hsym
      exact wIn_zero_of_not_mem hnot
  · push_neg at hex
    refine ⟨"", fun g _ => ?_⟩
    rw [remGet_initRem_eq]
    rcases hfind : funds.find? (fun F => F.id == g) with _ | G
    · rw [hfind]
    · rw [hfind]
      exact wIn_zero_of_not_mem (hex G (List.mem_of_find?_eq_some hfind))

lemma claimAmts_multi_zero (f₀ : String) (L : List (List String)) :
    ∀ rem, (rem.map Prod.fst).Nodup → (∀ p ∈ rem, 0 ≤ p.2) →
      (∀ g, g ≠ f₀ → remGet rem g = 0) →
      ∀ T w, (T, w) ∈ (claimAmts rem L).1 → T.Nodup → 2 ≤ T.length → w = 0 := by
  induction L with
  | nil =>
    intro rem _ _ _ T w hmem
    simp [claimAmts_nil] at hmem
  | cons S rest ih =>
    intro rem hkeys hnn hsupp T w hmem hTnd hTlen
    by_cases h : 0 < minRemWt rem S
    · have hmemS : ∀ g ∈ S, g = f₀ := by
        intro g hg
        by_contra hne
        have h0 : remGet rem g = 0 := hsupp g hne
        have hle := @minRemWt_le rem _ _ hg
        rw [h0] at hle
        exact absurd (lt_of_lt_of_le h hle) (lt_irrefl 0)
      simp only [claimAmts_cons_pos h] at hmem
      rcases List.mem_cons.mp hmem with hh | hh
      · have hTS : T = S := (Prod.mk.injEq _ _ _ _ ▸ hh).1
        subst hTS
        cases T with
        | nil => simp at hTlen
        | cons a ts =>
          cases ts with
          | nil => simp at hTlen
          | cons b ts2 =>
            have ha : a = f₀ := hmemS a (by simp)
            have hb : b = f₀ := hmemS b (by simp)
            have hne : a ∉ b :: ts2 := (List.nodup_cons.mp hTnd).1
            exact absurd (by rw [ha, hb] : a = b) (fun he => hne (he ▸ List.mem_cons_self b ts2))
      · refine ih (remClaim rem S (minRemWt rem S)) ?_
          (remClaim_nonneg hnn hkeys fun g hg => minRemWt_le hg) ?_ T w hh hTnd hTlen
        · rw [remClaim_keys]
          exact hkeys
        · intro g hg
          have hgS : g ∉ S := fun hmem' => hg (hmemS g hmem')
          rw [remGet_remClaim_not_mem hgS]
          exact hsupp g hg
    · simp only [claimAmts_cons_neg h] at hmem
      rcases List.mem_cons.mp hmem with hh | hh
      · exact (Prod.mk.injEq _ _ _ _ ▸ hh).2
      · exact ih rem hkeys hnn hsupp T w hh hTnd hTlen

/-- C6: disjoint funds.  When the funds of a (valid) fund set share no
    symbols, the allocator assigns 0 to every subset of two or more funds,
    and assigns to each singleton subset the sum of that fund's holding
    weights. -/
theorem disjoint_funds_allocation (funds : List Fund)
    (hids : (funds.map Fund.id).Nodup)
    (hw : ∀ F ∈ funds, ∀ h ∈ F.holdings, 0 ≤ h.weight)
    (hsy : ∀ F ∈ funds, (F.holdings.map SpecHolding.symbol).Nodup)
    (hdisj : ∀ F ∈ funds, ∀ G ∈ funds, F.id ≠ G.id → ∀ s ∈ F.symbols, s ∉ G.symbols) :
    (∀ S ∈ allocSubsets funds, 2 ≤ S.length → intersectionResult funds S = 0) ∧
    ∀ F ∈ funds, intersectionResult funds [F.id] = fundTotal F := by
  have hmulti : ∀ S ∈ allocSubsets funds, 2 ≤ S.length → intersectionResult funds S = 0 := by
    intro S hS hlen
    unfold intersectionResult
    apply List.sum_eq_zero
    intro x hx
    obtain ⟨sym, hsym, rfl⟩ := List.mem_map.mp hx
    obtain ⟨f₀, hsupp⟩ := @initRem_support funds sym hdisj
    unfold lookupAmt
    apply List.sum_eq_zero
    intro w hw'
    obtain ⟨p, hp, rfl⟩ := List.mem_map.mp hw'
    have hpmem := List.mem_filter.mp hp
    have hfst : p.1 = S := by simpa using hpmem.2
    have hSnd : S.Nodup :=
      List.Nodup.sublist (mem_allocSubsets.mp hS).2 (allocIds_nodup hids)
    exact claimAmts_multi_zero f₀ (allocSubsets funds) (initRem funds sym)
      (by rw [initRem_keys]; exact hids) (initRem_nonneg hw) hsupp p.1 p.2
      (by simpa using hpmem.1) (hfst ▸ hSnd) (hfst ▸ hlen)
  refine ⟨hmulti, fun F hF => ?_⟩
  have hcons := conservation_sum hids hw hsy hF
  have hLnodup : ((allocSubsets funds).filter fun S => F.id ∈ S).Nodup :=
    (allocSubsets_nodup hids).filter _
  have hmemL : [F.id] ∈ (allocSubsets funds).filter fun S => F.id ∈ S :=
    List.mem_filter.mpr ⟨singleton_mem_allocSubsets hF, by simp⟩
  have hzero : ∀ S, S ≠ [F.id] → S ∈ ((allocSubsets funds).filter fun S => F.id ∈ S) →
      intersectionResult funds S = 0 := by
    intro S hne hSL
    have hSsub := List.mem_filter.mp hSL
    have hfid : F.id ∈ S := by simpa using hSsub.2
    have hSne : S ≠ [] := (mem_allocSubsets.mp hSsub.1).1
    have hlen2 : 2 ≤ S.length := by
      cases S with
      | nil => exact absurd rfl hSne
      | cons a ts =>
        cases ts with
        | nil =>
          have hfa : F.id = a := by simpa using hfid
          exact absurd (by rw [hfa]) hne
        | cons b ts2 => simp [List.length_cons]
    exact hmulti S hSsub.1 hlen2
  have hsum := List.sum_map_eq_nsmul_single [F.id] (intersectionResult funds) hzero
  rw [hsum, List.count_eq_one_of_mem hLnodup hmemL, one_nsmul] at hcons
  exact hcons

/-- Witness for C6 at the disjoint-funds scenario: fund A with NVDA 0.2 and
    AAPL 0.1, fund B with MSFT 0.3; the pair subset gets 0 and each
    singleton gets the fund's total. -/
theorem disjoint_funds_allocation_witness :
    (djFunds.map Fund.id).Nodup ∧
    (∀ F ∈ djFunds, ∀ h ∈ F.holdings, 0 ≤ h.weight) ∧
    intersectionResult djFunds ["A", "B"] = 0 ∧
    intersectionResult djFunds ["A"] = 3/10 ∧
    intersectionResult djFunds ["B"] = 3/10 := by
  have hids : (djFunds.map Fund.id).Nodup := by decide
  have hw : ∀ F ∈ djFunds, ∀ h ∈ F.holdings, 0 ≤ h.weight := by
    norm_num [djFunds, djFundA, djFundB]
  have hsy : ∀ F ∈ djFunds, (F.holdings.map SpecHolding.symbol).Nodup := by decide
  have hdisj : ∀ F ∈ djFunds, ∀ G ∈ djFunds, F.id ≠ G.id → ∀ s ∈ F.symbols, s ∉ G.symbols := by
    decide
  have hmain := disjoint_funds_allocation djFunds hids hw hsy hdisj
  have hAB : ["A", "B"] ∈ allocSubsets djFunds := by decide
  have hA : intersectionResult djFunds ["A"] = fundTotal djFundA :=
    hmain.2 djFundA (by simp [djFunds])
  have hB : intersectionResult djFunds ["B"] = fundTotal djFundB :=
    hmain.2 djFundB (by simp [djFunds])
  refine ⟨hids, hw, hmain.1 ["A", "B"] hAB (by norm_num), ?_, ?_⟩
  · rw [hA]
    norm_num [fundTotal, djFundA]
  · rw [hB]
    norm_num [fundTotal, djFundB]

lemma exFunds_valid : validInput exFunds = true := by
  rw [validInput_iff]
  refine ⟨by norm_num [exFunds], ?_, by decide⟩
  norm_num [exFunds, exFund1, exFund2, exFund3]

lemma exFunds_spec_some :
    specCalculateIntersections exFunds = some (intersectionTable exFunds) := by
  unfold specCalculateIntersections
  rw [if_pos exFunds_valid]

lemma exFunds_subsets : allocSubsets exFunds =
    [["F1", "F2", "F3"], ["F1", "F2"], ["F1", "F3"], ["F2", "F3"],
     ["F1"], ["F2"], ["F3"]] := by
  decide

set_option maxHeartbeats 1000000 in
lemma exFunds_table : tableFor exFunds "META" =
    [(["F1", "F2", "F3"], 7/100), (["F1", "F2"], 0), (["F1", "F3"], 0),
     (["F2", "F3"], 7/100), (["F1"], 0), (["F2"], 0), (["F3"], 6/100)] := by
  have h0 : initRem exFunds "META" = [("F1", 7/100), ("F2", 14/100), ("F3", 20/100)] := by
    simp [initRem, weightIn, wIn, exFunds, exFund1, exFund2, exFund3, List.find?]
  have b12 : (("F1" : String) == "F2") = false := by decide
  have b13 : (("F1" : String) == "F3") = false := by decide
  have b21 : (("F2" : String) == "F1") = false := by decide
  have b23 : (("F2" : String) == "F3") = false := by decide
  have b31 : (("F3" : String) == "F1") = false := by decide
  have b32 : (("F3" : String) == "F2") = false := by decide
  have b11 : (("F1" : String) == "F1") = true := by decide
  have b22 : (("F2" : String) == "F2") = true := by decide
  have b33 : (("F3" : String) == "F3") = true := by decide
  have e12 : (("F1" : String) = "F2") = False := by simp
  have e13 : (("F1" : String) = "F3") = False := by simp
  have e21 : (("F2" : String) = "F1") = False := by simp
  have e23 : (("F2" : String) = "F3") = False := by simp
  have e31 : (("F3" : String) = "F1") = False := by simp
  have e32 : (("F3" : String) = "F2") = False := by simp
  simp only [tableFor, exFunds_subsets, h0]
  norm_num [claimAmts, minRemWt, remGet, remClaim, List.find?, min_def,
    b12, b13, b21, b23, b31, b32, b11, b22, b33, e12, e13, e21, e23, e31, e32]

lemma exFunds_universe : symbolUniverse exFunds = ["META"] := by decide

/-- C2: the worked three-fund example.  Fund 1 holds META at 0.07, fund 2
    at 0.14, fund 3 at 0.20, nothing else; the allocator's table assigns
    0.07 to the three-way subset, 0.07 to funds 2 and 3, 0.06 to fund 3
    alone, and 0 to every other subset. -/
theorem worked_three_fund_example :
    specCalculateIntersections exFunds = some
      [(["F1", "F2", "F3"], 7/100), (["F1", "F2"], 0), (["F1", "F3"], 0),
       (["F2", "F3"], 7/100), (["F1"], 0), (["F2"], 0), (["F3"], 6/100)] := by
  have h_res : ∀ S, intersectionResult exFunds S = lookupAmt (tableFor exFunds "META") S := by
    intro S
    unfold intersectionResult
    rw [exFunds_universe]
    simp
  rw [exFunds_spec_some]
  unfold intersectionTable
  rw [exFunds_subsets]
  simp only [List.map_cons, List.map_nil, h_res, exFunds_table]
  simp [lookupAmt_cons, lookupAmt_nil]

/-- Witness for C1 at the worked three-fund scenario, for fund 2: the table
    rows whose subset contains F2 sum to fund 2's total input weight. -/
theorem allocator_conservation_witness :
    specCalculateIntersections exFunds = some (intersectionTable exFunds) ∧
    (exFunds.map Fund.id).Nodup ∧ exFunds.length ≤ 5 ∧ exFund2 ∈ exFunds ∧
    (((intersectionTable exFunds).filter fun p => exFund2.id ∈ p.1).map Prod.snd).sum =
      ((exFund2.holdings.filter fun h => h.symbol ∈ symbolUniverse exFunds).map
        SpecHolding.weight).sum := by
  refine ⟨exFunds_spec_some, by decide, by norm_num [exFunds], by simp [exFunds], ?_⟩
  exact allocator_conservation exFunds (intersectionTable exFunds) exFunds_spec_some
    (by decide) (by norm_num [exFunds]) exFund2 (by simp [exFunds])
